import Mathlib

set_option linter.unusedSectionVars false

/-!
Verification of the `set` Go package (src/set.go): a concurrency-safe
generic set backed by a map `m : map[T]struct{}` guarded by an RWMutex.

Shallow embedding: the membership table `m` is a `Finset α` (Go map keys
with `comparable` element type); point and multi-set operations are pure
functions on that table.  Mutation and sharing between distinct `*Set`
instances are modelled by an explicit heap (`Heap`): a list of tables
indexed by references, with allocation appending a fresh table.
-/

namespace GoSet

variable {α : Type} [DecidableEq α]

/-- Embeds Go's `Set[T]` struct: the membership table `m`.  The RWMutex
field only serialises access and does not affect sequential semantics. -/
structure Set' (α : Type) where
  m : Finset α
deriving DecidableEq

/-- Embeds `New`: returns a new empty Set (`make(map[T]struct{})`). -/
def New : Set' α := ⟨∅⟩

/-- Embeds `Put` (spec name Insert): `s.m[e] = struct{}{}`. -/
def Put (s : Set' α) (e : α) : Set' α := ⟨insert e s.m⟩

/-- Embeds `Delete` (spec name Remove): `delete(s.m, e)`. -/
def Delete (s : Set' α) (e : α) : Set' α := ⟨s.m.erase e⟩

/-- Embeds `Has` (spec name Contains): `_, ok := s.m[e]; return ok`. -/
def Has (s : Set' α) (e : α) : Bool := decide (e ∈ s.m)

/-- Embeds `Len` (spec name Size): `len(s.m)`. -/
def Len (s : Set' α) : Nat := s.m.card

/-- Embeds the loop in `Intersection` that finds the input with the
fewest members: `smallest := sets[0]; for _, s := range sets { if
len(s.m) < len(smallest.m) { smallest = s } }`. -/
def findSmallest (s0 : Set' α) (sets : List (Set' α)) : Set' α :=
  sets.foldl (fun sm s => if s.m.card < sm.m.card then s else sm) s0

/-- Embeds `Intersection`: returns the empty set for zero inputs;
otherwise iterates the members of the smallest input and keeps those
present in every input set (the labelled `next` loop). -/
def Intersection (sets : List (Set' α)) : Set' α :=
  match sets with
  | [] => New
  | s0 :: _ =>
    ⟨(findSmallest s0 sets).m.filter (fun e => ∀ s ∈ sets, e ∈ s.m)⟩

/-- Embeds `Union`: ranges over every input set inserting each member
into a fresh result.  Go map iteration order is unspecified, and
insertion into a map is order-independent, so the result table is the
fold of unions. -/
def Union (sets : List (Set' α)) : Set' α :=
  ⟨sets.foldl (fun u s => u ∪ s.m) ∅⟩

/-- Embeds `Copy`: a new set populated by ranging over `s`. -/
def Copy (s : Set' α) : Set' α := ⟨s.m⟩

/-- Embeds `Diff` (spec name Difference): ranges over `s`, keeping the
members absent from `t`. -/
def Diff (s t : Set' α) : Set' α := ⟨s.m.filter (fun e => e ∉ t.m)⟩

/-- Embeds `Subset`: ranges over `s.m` and returns false at the first
member absent from `t.m`, else true. -/
def Subset (s t : Set' α) : Bool := decide (∀ e ∈ s.m, e ∈ t.m)

/-- Embeds `Equal`: first compares `len(s.m)` with `len(t.m)` and
returns false on mismatch; only then ranges over `s.m` testing
membership in `t.m`. -/
def Equal (s t : Set' α) : Bool :=
  if s.m.card ≠ t.m.card then false
  else decide (∀ e ∈ s.m, e ∈ t.m)

/-- Modelled from the spec: the plain set-theoretic intersection that
§4.1 describes ("a new set containing only elements present in every
input set. Zero inputs yield an empty set"), written without the
smallest-first optimisation, for comparison with `Intersection`. -/
def IntersectionSpec (sets : List (Set' α)) : Finset α :=
  match sets with
  | [] => ∅
  | s0 :: _ => s0.m.filter (fun e => ∀ s ∈ sets, e ∈ s.m)

/-- Mutations a caller can apply to a set in place: `Put` or `Delete`. -/
inductive MutOp (α : Type) where
  | put (e : α)
  | delete (e : α)

/-- The effect of one mutation on a membership table. -/
def applyMut (m : Finset α) : MutOp α → Finset α
  | .put e => insert e m
  | .delete e => m.erase e

/-- Heap of live `Set` instances: `sets[r]` is the membership table of
the instance referenced by `r`.  Models the sharing structure that Go
pointers (`*Set[T]`) create. -/
structure Heap (α : Type) where
  sets : List (Finset α)

/-- Reads the table of the instance referenced by `r`. -/
def getm (h : Heap α) (r : Nat) : Finset α := (h.sets[r]?).getD ∅

/-- Allocates a fresh instance holding table `m` (what `New` followed
by populating inserts produces) and returns its reference. -/
def alloc (h : Heap α) (m : Finset α) : Heap α × Nat :=
  (⟨h.sets ++ [m]⟩, h.sets.length)

/-- Applies one in-place mutation to the instance referenced by `r`. -/
def mutateAt (h : Heap α) (r : Nat) (op : MutOp α) : Heap α :=
  ⟨h.sets.set r (applyMut (getm h r) op)⟩

/-- Runs a sequence of mutations, all on the instance referenced by `r`. -/
def runMuts (h : Heap α) (r : Nat) (ops : List (MutOp α)) : Heap α :=
  ops.foldl (fun h' op => mutateAt h' r op) h

/-- Embeds `Copy` at the heap level: allocates a fresh instance whose
table is populated from the source by ranging over it. -/
def copyOp (h : Heap α) (r : Nat) : Heap α × Nat :=
  alloc h (Copy ⟨getm h r⟩).m

/-- Embeds `Union` at the heap level: the result lives in a freshly
allocated instance (`u := New[T]()`). -/
def unionOp (h : Heap α) (rs : List Nat) : Heap α × Nat :=
  alloc h (Union (rs.map (fun r => ⟨getm h r⟩))).m

/-- Embeds `Intersection` at the heap level: the result lives in a
freshly allocated instance (`i := New[T]()`). -/
def intersectionOp (h : Heap α) (rs : List Nat) : Heap α × Nat :=
  alloc h (Intersection (rs.map (fun r => ⟨getm h r⟩))).m

/-- Embeds `Diff` at the heap level: the result lives in a freshly
allocated instance (`d := New[T]()`). -/
def diffOp (h : Heap α) (rs rt : Nat) : Heap α × Nat :=
  alloc h (Diff ⟨getm h rs⟩ ⟨getm h rt⟩).m

/-- Lock-acquisition trace of `s.Equal(t)` on distinct instances,
identified by reference: the code runs `s.mu.RLock()` then
`t.mu.RLock()` (src/set.go lines 146-149), i.e. strict argument order. -/
def equalLockOrder (s t : Nat) : List Nat := [s, t]

/-- Lock-acquisition trace of `s.Subset(t)` on distinct instances: the
code runs `s.mu.RLock()` then `t.mu.RLock()` (src/set.go lines
131-134), i.e. strict argument order. -/
def subsetLockOrder (s t : Nat) : List Nat := [s, t]

/-- Two two-lock acquisition sequences admit a circular wait: each
thread can hold its first lock while waiting for its second, which the
other thread holds. -/
def canDeadlock : List Nat → List Nat → Prop
  | [a1, b1], [a2, b2] => a1 = b2 ∧ b1 = a2 ∧ a1 ≠ b1
  | _, _ => False

lemma findSmallest_mem (s0 : Set' α) (sets : List (Set' α)) :
    findSmallest s0 sets ∈ s0 :: sets := by
  induction sets generalizing s0 with
  | nil => simp [findSmallest]
  | cons b l ih =>
    simp only [findSmallest, List.foldl_cons]
    by_cases hc : b.m.card < s0.m.card
    · rw [if_pos hc]
      have h := ih b
      simp only [findSmallest] at h
      exact List.mem_cons.mpr (Or.inr h)
    · rw [if_neg hc]
      have h := ih s0
      simp only [findSmallest] at h
      rcases List.mem_cons.mp h with h1 | h1
      · exact List.mem_cons.mpr (Or.inl h1)
      · exact List.mem_cons.mpr (Or.inr (List.mem_cons.mpr (Or.inr h1)))

lemma findSmallest_card_le (s0 : Set' α) (sets : List (Set' α)) :
    ∀ s ∈ s0 :: sets, (findSmallest s0 sets).m.card ≤ s.m.card := by
  induction sets generalizing s0 with
  | nil =>
    intro s hs
    rcases List.mem_cons.mp hs with h1 | h1
    · rw [h1]
      exact le_rfl
    · exact absurd h1 (List.not_mem_nil s)
  | cons b l ih =>
    intro s hs
    have hstep : findSmallest s0 (b :: l)
        = findSmallest (if b.m.card < s0.m.card then b else s0) l := rfl
    by_cases hc : b.m.card < s0.m.card
    · rw [hstep, if_pos hc]
      rcases List.mem_cons.mp hs with h1 | h1
      · rw [h1]
        exact le_trans (ih b b (List.mem_cons_self b l)) (le_of_lt hc)
      · exact ih b s h1
    · rw [hstep, if_neg hc]
      push_neg at hc
      rcases List.mem_cons.mp hs with h1 | h1
      · rw [h1]
        exact ih s0 s0 (List.mem_cons_self s0 l)
      · rcases List.mem_cons.mp h1 with h2 | h2
        · rw [h2]
          exact le_trans (ih s0 s0 (List.mem_cons_self s0 l)) hc
        · exact ih s0 s (List.mem_cons.mpr (Or.inr h2))

lemma mem_Intersection (sets : List (Set' α)) (e : α) :
    e ∈ (Intersection sets).m ↔ sets ≠ [] ∧ ∀ s ∈ sets, e ∈ s.m := by
  cases sets with
  | nil => simp [Intersection, New]
  | cons s0 rest =>
    simp only [Intersection, Finset.mem_filter, ne_eq, reduceCtorEq,
      not_false_iff, true_and]
    constructor
    · exact fun h => h.2
    · intro h
      refine ⟨?_, h⟩
      have hm := findSmallest_mem s0 (s0 :: rest)
      rcases List.mem_cons.mp hm with h1 | h1
      · rw [h1]
        exact h _ (List.mem_cons_self s0 rest)
      · exact h _ h1

lemma mem_foldl_union (sets : List (Set' α)) (acc : Finset α) (e : α) :
    e ∈ sets.foldl (fun u s => u ∪ s.m) acc ↔
      e ∈ acc ∨ ∃ s ∈ sets, e ∈ s.m := by
  induction sets generalizing acc with
  | nil => simp
  | cons b l ih =>
    simp only [List.foldl_cons, ih, Finset.mem_union, List.mem_cons]
    constructor
    · rintro ((h | h) | ⟨s, hs, hm⟩)
      · exact Or.inl h
      · exact Or.inr ⟨b, Or.inl rfl, h⟩
      · exact Or.inr ⟨s, Or.inr hs, hm⟩
    · rintro (h | ⟨s, (rfl | hs), hm⟩)
      · exact Or.inl (Or.inl h)
      · exact Or.inl (Or.inr hm)
      · exact Or.inr ⟨s, hs, hm⟩

lemma mem_Union (sets : List (Set' α)) (e : α) :
    e ∈ (Union sets).m ↔ ∃ s ∈ sets, e ∈ s.m := by
  simp [Union, mem_foldl_union]

lemma Equal_eq_true_iff (s t : Set' α) : Equal s t = true ↔ s.m = t.m := by
  constructor
  · intro h
    unfold Equal at h
    by_cases hc : s.m.card ≠ t.m.card
    · rw [if_pos hc] at h
      exact absurd h (by simp)
    · push_neg at hc
      rw [if_neg (by simpa using hc)] at h
      have hsub : s.m ⊆ t.m := fun e he => (decide_eq_true_iff.mp h) e he
      exact Finset.eq_of_subset_of_card_le hsub (le_of_eq hc.symm)
  · intro h
    unfold Equal
    rw [h]
    simp

lemma Subset_eq_true_iff (s t : Set' α) : Subset s t = true ↔ s.m ⊆ t.m := by
  simp only [Subset, decide_eq_true_iff]
  exact ⟨fun h e he => h e he, fun h e he => h he⟩

lemma getm_alloc_lt (h : Heap α) (m : Finset α) (r : Nat)
    (hr : r < h.sets.length) : getm (alloc h m).1 r = getm h r := by
  simp [getm, alloc, List.getElem?_append, hr]

lemma getm_alloc_fresh (h : Heap α) (m : Finset α) :
    getm (alloc h m).1 (alloc h m).2 = m := by
  simp [getm, alloc]

lemma getm_mutateAt_ne (h : Heap α) (r r' : Nat) (op : MutOp α)
    (hne : r ≠ r') : getm (mutateAt h r' op) r = getm h r := by
  simp [getm, mutateAt, List.getElem?_set_ne (Ne.symm hne)]

lemma getm_runMuts_ne (h : Heap α) (r r' : Nat) (ops : List (MutOp α))
    (hne : r ≠ r') : getm (runMuts h r' ops) r = getm h r := by
  induction ops generalizing h with
  | nil => rfl
  | cons op l ih =>
    have hstep : runMuts h r' (op :: l) = runMuts (mutateAt h r' op) r' l := rfl
    rw [hstep, ih, getm_mutateAt_ne h r r' op hne]

lemma alloc_frame (h : Heap α) (m : Finset α) (r : Nat)
    (hr : r < h.sets.length) (ops : List (MutOp α)) :
    getm (runMuts (alloc h m).1 (alloc h m).2 ops) r = getm h r
    ∧ getm (runMuts (alloc h m).1 r ops) (alloc h m).2
        = getm (alloc h m).1 (alloc h m).2 := by
  have hne : r ≠ (alloc h m).2 := Nat.ne_of_lt hr
  constructor
  · rw [getm_runMuts_ne _ _ _ _ hne, getm_alloc_lt h m r hr]
  · rw [getm_runMuts_ne _ _ _ _ (Ne.symm hne)]

/-- C1: for every nonempty list of input sets and every element e, e is
a member of Intersection(s1,...,sn) iff e is a member of every si; with
zero input sets the result is the empty set. -/
theorem C1_intersection_membership (sets : List (Set' α)) (e : α) :
    (sets ≠ [] →
      (Has (Intersection sets) e = true ↔ ∀ s ∈ sets, Has s e = true))
    ∧ (Intersection ([] : List (Set' α))).m = ∅ := by
  constructor
  · intro hne
    simp only [Has, decide_eq_true_iff, mem_Intersection]
    exact ⟨fun h => h.2, fun h => ⟨hne, h⟩⟩
  · rfl

theorem C1_witness :
    ([(⟨{1, 2}⟩ : Set' ℕ), ⟨{2, 3}⟩] ≠ [])
    ∧ Has (Intersection [(⟨{1, 2}⟩ : Set' ℕ), ⟨{2, 3}⟩]) 2 = true := by
  refine ⟨by decide, ?_⟩
  have h :=
    (C1_intersection_membership [(⟨{1, 2}⟩ : Set' ℕ), ⟨{2, 3}⟩] 2).1 (by decide)
  exact h.mpr (by decide)

/-- C2: the smallest-first algorithm of Intersection really selects an
input set of minimal size and tests only its members, and it computes
exactly the plain set-theoretic intersection; the result is independent
of the ordering of the inputs (for every permutation of the inputs the
resulting sets are Equal). -/
theorem C2_intersection_refinement (sets sets' : List (Set' α))
    (hperm : sets.Perm sets') :
    (∀ s0 rest, sets = s0 :: rest →
      findSmallest s0 sets ∈ sets
      ∧ (∀ s ∈ sets, (findSmallest s0 sets).m.card ≤ s.m.card)
      ∧ (Intersection sets).m
          = (findSmallest s0 sets).m.filter (fun e => ∀ s ∈ sets, e ∈ s.m))
    ∧ (Intersection sets).m = IntersectionSpec sets
    ∧ Equal (Intersection sets) (Intersection sets') = true := by
  have hspec : ∀ (l : List (Set' α)), (Intersection l).m = IntersectionSpec l := by
    intro l
    cases l with
    | nil => rfl
    | cons s0 rest =>
      ext e
      rw [mem_Intersection]
      simp only [IntersectionSpec, Finset.mem_filter]
      constructor
      · intro h
        exact ⟨h.2 _ (List.mem_cons_self s0 rest), h.2⟩
      · intro h
        exact ⟨List.cons_ne_nil s0 rest, h.2⟩
  refine ⟨?_, hspec sets, ?_⟩
  · intro s0 rest heq
    subst heq
    refine ⟨?_, ?_, rfl⟩
    · rcases List.mem_cons.mp (findSmallest_mem s0 (s0 :: rest)) with h1 | h1
      · rw [h1]
        exact List.mem_cons_self s0 rest
      · exact h1
    · intro s hs
      exact findSmallest_card_le s0 (s0 :: rest) s (List.mem_cons.mpr (Or.inr hs))
  · apply (Equal_eq_true_iff _ _).mpr
    ext e
    rw [mem_Intersection, mem_Intersection]
    constructor
    · rintro ⟨hne, h⟩
      refine ⟨?_, fun s hs => h s (hperm.mem_iff.mpr hs)⟩
      intro h0
      rw [h0] at hperm
      exact hne hperm.eq_nil
    · rintro ⟨hne, h⟩
      refine ⟨?_, fun s hs => h s (hperm.mem_iff.mp hs)⟩
      intro h0
      rw [h0] at hperm
      exact hne hperm.symm.eq_nil

theorem C2_witness :
    ([(⟨{1, 2}⟩ : Set' ℕ), ⟨{2}⟩].Perm [(⟨{2}⟩ : Set' ℕ), ⟨{1, 2}⟩])
    ∧ (Intersection [(⟨{1, 2}⟩ : Set' ℕ), ⟨{2}⟩]).m
        = IntersectionSpec [(⟨{1, 2}⟩ : Set' ℕ), ⟨{2}⟩]
    ∧ Equal (Intersection [(⟨{1, 2}⟩ : Set' ℕ), ⟨{2}⟩])
        (Intersection [(⟨{2}⟩ : Set' ℕ), ⟨{1, 2}⟩]) = true := by
  have hperm : ([(⟨{1, 2}⟩ : Set' ℕ), ⟨{2}⟩].Perm
      [(⟨{2}⟩ : Set' ℕ), ⟨{1, 2}⟩]) := by decide
  have h := C2_intersection_refinement
    [(⟨{1, 2}⟩ : Set' ℕ), ⟨{2}⟩] [(⟨{2}⟩ : Set' ℕ), ⟨{1, 2}⟩] hperm
  exact ⟨hperm, h.2.1, h.2.2⟩

/-- C3: for every list of input sets and every element e, e is a member
of Union(s1,...,sn) iff e is a member of at least one si; with zero
input sets the result is the empty set. -/
theorem C3_union_membership (sets : List (Set' α)) (e : α) :
    (Has (Union sets) e = true ↔ ∃ s ∈ sets, Has s e = true)
    ∧ (Union ([] : List (Set' α))).m = ∅ := by
  constructor
  · simp only [Has, decide_eq_true_iff, mem_Union]
  · rfl

/-- C4: Equal returns true iff the two sets have identical membership,
and when the sizes differ it returns false by the size check alone. -/
theorem C4_equal_characterisation (s t : Set' α) :
    (Equal s t = true ↔ s.m = t.m)
    ∧ (s.m.card ≠ t.m.card → Equal s t = false) := by
  refine ⟨Equal_eq_true_iff s t, ?_⟩
  intro h
  unfold Equal
  rw [if_pos h]

theorem C4_witness :
    ((⟨{1}⟩ : Set' ℕ).m.card ≠ (⟨{1, 2}⟩ : Set' ℕ).m.card)
    ∧ Equal (⟨{1}⟩ : Set' ℕ) ⟨{1, 2}⟩ = false := by
  refine ⟨by decide, ?_⟩
  exact (C4_equal_characterisation (⟨{1}⟩ : Set' ℕ) ⟨{1, 2}⟩).2 (by decide)

/-- C5: immediately after Put(e) (Insert), Has(e) (Contains) returns
true; after a subsequent Delete(e) (Remove), Has(e) returns false. -/
theorem C5_membership_roundtrip (s : Set' α) (e : α) :
    Has (Put s e) e = true ∧ Has (Delete (Put s e) e) e = false := by
  constructor
  · simp [Put, Has]
  · simp [Put, Delete, Has]

/-- C6: a live set Equals its Copy, and the copy is an independent
snapshot: any sequence of Put/Delete mutations applied to the copy
never changes the source's membership, and mutating the source never
changes the copy's membership. -/
theorem C6_copy_independence (h : Heap α) (r : Nat)
    (hr : r < h.sets.length) :
    Equal (⟨getm (copyOp h r).1 r⟩ : Set' α) ⟨getm (copyOp h r).1 (copyOp h r).2⟩ = true
    ∧ (∀ ops : List (MutOp α),
        getm (runMuts (copyOp h r).1 (copyOp h r).2 ops) r = getm h r)
    ∧ (∀ ops : List (MutOp α),
        getm (runMuts (copyOp h r).1 r ops) (copyOp h r).2 = getm h r) := by
  have hcopy : copyOp h r = alloc h (getm h r) := rfl
  have hne : r ≠ (copyOp h r).2 := by
    rw [hcopy]
    exact Nat.ne_of_lt hr
  refine ⟨?_, ?_, ?_⟩
  · apply (Equal_eq_true_iff _ _).mpr
    show getm (copyOp h r).1 r = getm (copyOp h r).1 (copyOp h r).2
    rw [hcopy, getm_alloc_lt h _ r hr, getm_alloc_fresh]
  · intro ops
    rw [getm_runMuts_ne _ _ _ _ hne, hcopy, getm_alloc_lt h _ r hr]
  · intro ops
    rw [getm_runMuts_ne _ _ _ _ (Ne.symm hne), hcopy, getm_alloc_fresh]

theorem C6_witness :
    0 < (Heap.mk [({1, 2} : Finset ℕ)]).sets.length
    ∧ (Equal (⟨getm (copyOp (Heap.mk [({1, 2} : Finset ℕ)]) 0).1 0⟩ : Set' ℕ)
          ⟨getm (copyOp (Heap.mk [({1, 2} : Finset ℕ)]) 0).1
            (copyOp (Heap.mk [({1, 2} : Finset ℕ)]) 0).2⟩ = true
       ∧ (∀ ops : List (MutOp ℕ),
          getm (runMuts (copyOp (Heap.mk [({1, 2} : Finset ℕ)]) 0).1
              (copyOp (Heap.mk [({1, 2} : Finset ℕ)]) 0).2 ops) 0
            = getm (Heap.mk [({1, 2} : Finset ℕ)]) 0)
       ∧ (∀ ops : List (MutOp ℕ),
          getm (runMuts (copyOp (Heap.mk [({1, 2} : Finset ℕ)]) 0).1 0 ops)
              (copyOp (Heap.mk [({1, 2} : Finset ℕ)]) 0).2
            = getm (Heap.mk [({1, 2} : Finset ℕ)]) 0)) :=
  ⟨by decide, C6_copy_independence (Heap.mk [({1, 2} : Finset ℕ)]) 0 (by decide)⟩

/-- C7: e is a member of Diff s t iff e is a member of s and not of t;
Diff with an empty second argument Equals s; and second arguments that
agree on the members of s produce the same result. -/
theorem C7_difference (s t t' : Set' α)
    (hagree : ∀ e ∈ s.m, (e ∈ t.m ↔ e ∈ t'.m)) :
    (∀ e, Has (Diff s t) e = true ↔ (Has s e = true ∧ Has t e = false))
    ∧ Equal (Diff s New) s = true
    ∧ Diff s t = Diff s t' := by
  refine ⟨?_, ?_, ?_⟩
  · intro e
    simp [Diff, Has, Finset.mem_filter]
  · apply (Equal_eq_true_iff _ _).mpr
    show s.m.filter (fun e => e ∉ (New : Set' α).m) = s.m
    simp [New]
  · show (⟨s.m.filter (fun e => e ∉ t.m)⟩ : Set' α) = ⟨s.m.filter (fun e => e ∉ t'.m)⟩
    have hf : s.m.filter (fun e => e ∉ t.m) = s.m.filter (fun e => e ∉ t'.m) := by
      apply Finset.filter_congr
      intro e he
      exact not_congr (hagree e he)
    rw [hf]

theorem C7_witness :
    (∀ e ∈ ({1, 2} : Finset ℕ), (e ∈ ({2, 5} : Finset ℕ) ↔ e ∈ ({2, 9} : Finset ℕ)))
    ∧ Diff (⟨{1, 2}⟩ : Set' ℕ) ⟨{2, 5}⟩ = Diff (⟨{1, 2}⟩ : Set' ℕ) ⟨{2, 9}⟩ := by
  refine ⟨by decide, ?_⟩
  exact (C7_difference (⟨{1, 2}⟩ : Set' ℕ) ⟨{2, 5}⟩ ⟨{2, 9}⟩ (by decide)).2.2

/-- C8: Subset s t returns true iff every member of s is a member of t;
the empty set is a Subset of every set; and Equal s t implies Subset in
both directions. -/
theorem C8_subset (s t : Set' α) :
    (Subset s t = true ↔ s.m ⊆ t.m)
    ∧ Subset (New : Set' α) s = true
    ∧ (Equal s t = true → Subset s t = true ∧ Subset t s = true) := by
  refine ⟨Subset_eq_true_iff s t, ?_, ?_⟩
  · apply (Subset_eq_true_iff _ _).mpr
    show (∅ : Finset α) ⊆ s.m
    exact Finset.empty_subset s.m
  · intro heq
    have hm : s.m = t.m := (Equal_eq_true_iff s t).mp heq
    constructor
    · exact (Subset_eq_true_iff s t).mpr (hm ▸ Finset.Subset.refl s.m)
    · exact (Subset_eq_true_iff t s).mpr (hm ▸ Finset.Subset.refl s.m)

theorem C8_witness :
    Equal (⟨{1, 2}⟩ : Set' ℕ) ⟨{2, 1}⟩ = true
    ∧ Subset (⟨{1, 2}⟩ : Set' ℕ) ⟨{2, 1}⟩ = true
    ∧ Subset (⟨{2, 1}⟩ : Set' ℕ) ⟨{1, 2}⟩ = true := by
  have heq : Equal (⟨{1, 2}⟩ : Set' ℕ) ⟨{2, 1}⟩ = true := by decide
  have h := (C8_subset (⟨{1, 2}⟩ : Set' ℕ) ⟨{2, 1}⟩).2.2 heq
  exact ⟨heq, h.1, h.2⟩

/-- C9 counterexample: the claim says the two-instance lock acquisition
order of Equal is determined by a stable total order over instance
identity, not by call-site argument order, which would make the
acquisition order for a given pair of instances the same in both call
directions; on instances 0 and 1 the code locks in opposite orders. -/
theorem C9_counterexample : equalLockOrder 0 1 ≠ equalLockOrder 1 0 := by
  decide

/-- C9 amended: Subset and Equal acquire the two instance locks in
strict call-site argument order (receiver first, then argument), so for
any two distinct instances the acquisition traces of a.Equal(b) and
b.Equal(a) form a circular wait: concurrent execution can deadlock. -/
theorem C9_lock_order (a b : Nat) (hne : a ≠ b) :
    equalLockOrder a b = [a, b]
    ∧ subsetLockOrder a b = [a, b]
    ∧ canDeadlock (equalLockOrder a b) (equalLockOrder b a)
    ∧ canDeadlock (subsetLockOrder a b) (subsetLockOrder b a) :=
  ⟨rfl, rfl, ⟨rfl, rfl, hne⟩, ⟨rfl, rfl, hne⟩⟩

theorem C9_witness :
    (0 : Nat) ≠ 1
    ∧ equalLockOrder 0 1 = [0, 1]
    ∧ subsetLockOrder 0 1 = [0, 1]
    ∧ canDeadlock (equalLockOrder 0 1) (equalLockOrder 1 0)
    ∧ canDeadlock (subsetLockOrder 0 1) (subsetLockOrder 1 0) :=
  ⟨by decide, C9_lock_order 0 1 (by decide)⟩

/-- C10: Union, Intersection and Diff allocate their result freshly:
for valid input references, any sequence of Put/Delete mutations
applied to the result never changes any input's membership, and
mutating an input never changes the already-returned result. -/
theorem C10_result_freshness (h : Heap α) (rs : List Nat) (ra rb : Nat)
    (hrs : ∀ r ∈ rs, r < h.sets.length)
    (ha : ra < h.sets.length) (hb : rb < h.sets.length) :
    (∀ ops : List (MutOp α), ∀ r ∈ rs,
        getm (runMuts (unionOp h rs).1 (unionOp h rs).2 ops) r = getm h r
        ∧ getm (runMuts (unionOp h rs).1 r ops) (unionOp h rs).2
            = getm (unionOp h rs).1 (unionOp h rs).2)
    ∧ (∀ ops : List (MutOp α), ∀ r ∈ rs,
        getm (runMuts (intersectionOp h rs).1 (intersectionOp h rs).2 ops) r
            = getm h r
        ∧ getm (runMuts (intersectionOp h rs).1 r ops) (intersectionOp h rs).2
            = getm (intersectionOp h rs).1 (intersectionOp h rs).2)
    ∧ (∀ ops : List (MutOp α), ∀ r ∈ [ra, rb],
        getm (runMuts (diffOp h ra rb).1 (diffOp h ra rb).2 ops) r = getm h r
        ∧ getm (runMuts (diffOp h ra rb).1 r ops) (diffOp h ra rb).2
            = getm (diffOp h ra rb).1 (diffOp h ra rb).2) := by
  refine ⟨?_, ?_, ?_⟩
  · intro ops r hr
    exact alloc_frame h _ r (hrs r hr) ops
  · intro ops r hr
    exact alloc_frame h _ r (hrs r hr) ops
  · intro ops r hr
    rcases List.mem_cons.mp hr with h1 | h1
    · rw [h1]
      exact alloc_frame h _ ra ha ops
    · rcases List.mem_cons.mp h1 with h2 | h2
      · rw [h2]
        exact alloc_frame h _ rb hb ops
      · exact absurd h2 (List.not_mem_nil r)

theorem C10_witness :
    (∀ r ∈ [0, 1], r < (Heap.mk [({1} : Finset ℕ), {2}]).sets.length)
    ∧ 0 < (Heap.mk [({1} : Finset ℕ), {2}]).sets.length
    ∧ 1 < (Heap.mk [({1} : Finset ℕ), {2}]).sets.length
    ∧ (∀ ops : List (MutOp ℕ), ∀ r ∈ [0, 1],
        getm (runMuts (unionOp (Heap.mk [({1} : Finset ℕ), {2}]) [0, 1]).1
            (unionOp (Heap.mk [({1} : Finset ℕ), {2}]) [0, 1]).2 ops) r
          = getm (Heap.mk [({1} : Finset ℕ), {2}]) r
        ∧ getm (runMuts (unionOp (Heap.mk [({1} : Finset ℕ), {2}]) [0, 1]).1 r ops)
            (unionOp (Heap.mk [({1} : Finset ℕ), {2}]) [0, 1]).2
          = getm (unionOp (Heap.mk [({1} : Finset ℕ), {2}]) [0, 1]).1
              (unionOp (Heap.mk [({1} : Finset ℕ), {2}]) [0, 1]).2) := by
  have h := C10_result_freshness (Heap.mk [({1} : Finset ℕ), {2}]) [0, 1] 0 1
    (by decide) (by decide) (by decide)
  exact ⟨by decide, by decide, by decide, h.1⟩

end GoSet
